import Mathlib

/-!
# WebCore: `AtomicHTMLToken` and `CSSFunctionValue`

A shallow embedding of

* `Source/WebCore/html/parser/AtomicHTMLToken.h`
  (`findAttribute`, `AtomicHTMLToken::initializeAttributes`, the two
  constructors and the accessors), and
* `Source/WebCore/css/CSSFunctionValue.cpp`
  (the constructors, `customCSSText`, `equals`,
  `buildParserValueSubstitutingVariables`),

followed by the properties proved about them.

Conventions of the embedding.

* A `Vector<T>` is a `List T`; a pointer into a vector is the index of the
  element it designates, the null pointer is `none`.
* A member function that writes to `this` or to a reference argument takes
  the old value and returns the new one.
* `ASSERT` is compiled in or out by the build; every function containing one
  takes the flag `assertionsEnabled` and returns `none` when an enabled
  assertion fails.
* A data member that a constructor leaves without a value is `none`.
* Functions of collaborators whose code is not part of the sources
  (`QualifiedName::matches`, `getValueName`, `CSSValueList::cssText`,
  `CSSValueList::equals`, `CSSValueList::createFromParserValueList`,
  `buildParserValueListSubstitutingVariables`) are parameters of the functions
  that call them.
* Types, constants and small helpers declared in headers that are not part of
  the sources (the string types, `QualifiedName`, `Attribute`, `HTMLToken`,
  `CSSParserValue`, `ASSERT`, `compareCSSValuePtr`) are modelled here; the
  documentation of each says so.
-/

namespace WebCore

/-! ## Strings -/

/-- Modelled from the spec: the character type `UChar` of the string library,
which is not among the sources. A UTF-16 code unit, as a natural number; no
arithmetic is done on code units except the narrowing to `LChar`. -/
abbrev UChar := Nat

/-- Modelled from the spec: the character buffers of the tokenizer
(`Vector<UChar, N>`, declared in `HTMLToken.h`, not among the sources). -/
abbrev DataVector := List UChar

/-- Modelled from the spec: the atomic-string type `AtomicString` of the string
library, which is not among the sources. An interned string: null, or a sequence
of code units; two atomic strings are equal exactly when both are null or both
hold the same characters. -/
structure AtomicString where
  impl : Option (List UChar)
deriving DecidableEq, Repr

/-- Modelled from the spec: the constant `nullAtom` of the string library, the
null atomic string. -/
def nullAtom : AtomicString := ⟨none⟩

/-- Modelled from the spec: the constructor `AtomicString(const Vector<UChar, N>&)`
of the string library, the interned string with the characters of the vector. -/
def AtomicString.ofVector (v : DataVector) : AtomicString := ⟨some v⟩

/-- Modelled from the spec: the string type `String` of the string library, which
is not among the sources: null, or a sequence of code units. -/
structure WTFString where
  impl : Option (List UChar)
deriving DecidableEq, Repr

/-- Modelled from the spec: the characters of a `String`; the null string has
none. -/
def WTFString.characters (s : WTFString) : List UChar :=
  match s.impl with
  | none => []
  | some cs => cs

/-- Modelled from the spec: the constructor `String(const Vector<UChar, N>&)` of
the string library, a string with the characters of the vector. -/
def WTFString.ofVector (v : DataVector) : WTFString := ⟨some v⟩

/-- Modelled from the spec: the function `String::make8BitFrom16BitSource` of the
string library: the null string for an empty source, otherwise every code unit
narrowed to an 8-bit `LChar`. -/
def WTFString.make8BitFrom16BitSource (v : DataVector) : WTFString :=
  if v.length = 0 then ⟨none⟩ else ⟨some (v.map (· % 256))⟩

/-! ## Qualified names and attributes -/

/-- Modelled from the spec: the type `QualifiedName` (`QualifiedName.h` is not
among the sources): namespace prefix, local name and namespace URI, in the order
of the constructor call `QualifiedName(nullAtom, localName, nullAtom)`. -/
structure QualifiedName where
  pfx : AtomicString
  localName : AtomicString
  namespaceURI : AtomicString
deriving DecidableEq, Repr

/-- Modelled from the spec: the comparison `QualifiedName::matches`
(`QualifiedName.h` is not among the sources): the names are the same, or their
local names and namespaces agree; the namespace prefix is not compared. The
functions below take the comparison as a parameter; this is the instance they
are run with. -/
def QualifiedName.matches (a b : QualifiedName) : Bool :=
  a = b || (a.localName = b.localName && a.namespaceURI = b.namespaceURI)

/-- Modelled from the spec: the DOM type `Attribute` (`Attribute.h` is not among
the sources): a qualified name and a value, in the order of the constructor call
`Attribute(name, value)`. -/
structure Attribute where
  name : QualifiedName
  value : AtomicString
deriving DecidableEq, Repr

namespace HTMLToken

/-- Modelled from the spec: the token kinds `HTMLToken::Type` (`HTMLToken.h` is
not among the sources), the seven enumerators of the `switch` in
`AtomicHTMLToken(HTMLToken&)`. `Type` is reserved, hence `TokenType`. -/
inductive TokenType
  | Uninitialized
  | DOCTYPE
  | StartTag
  | EndTag
  | Comment
  | Character
  | EndOfFile
deriving DecidableEq, Repr

/-- Modelled from the spec: the tokenizer attribute `HTMLToken::Attribute`, with
the two members `initializeAttributes` reads: the name and value buffers. -/
structure Attribute where
  name : DataVector
  value : DataVector
deriving DecidableEq, Repr

/-- Modelled from the spec: the list type `HTMLToken::AttributeList`. -/
abbrev AttributeList := List Attribute

end HTMLToken

/-- Modelled from the spec: the type `DoctypeData` of a DOCTYPE token, with the
members the accessors of `AtomicHTMLToken` read. -/
structure DoctypeData where
  hasPublicIdentifier : Bool
  hasSystemIdentifier : Bool
  publicIdentifier : DataVector
  systemIdentifier : DataVector
  forceQuirks : Bool
deriving DecidableEq, Repr

/-- Modelled from the spec: the tokenizer token `HTMLToken` (`HTMLToken.h` is not
among the sources), as seen through the accessors that `AtomicHTMLToken` calls:
each field is what the accessor of that name returns. -/
structure HTMLToken where
  type : HTMLToken.TokenType
  name : DataVector
  selfClosing : Bool
  attributes : HTMLToken.AttributeList
  comment : DataVector
  commentIsAll8BitData : Bool
  characters : DataVector
  charactersIsAll8BitData : Bool
  doctypeData : Option DoctypeData
deriving DecidableEq, Repr

/-- Modelled from the spec: the call `token.releaseDoctypeData()`, which hands
over the DOCTYPE data and leaves the token without it. -/
def HTMLToken.releaseDoctypeData (token : HTMLToken) : Option DoctypeData × HTMLToken :=
  (token.doctypeData, { token with doctypeData := none })

/-! ## `findAttribute` -/

/-- The loop of `findAttribute`, entered at index `i` with `attributes` still
to visit: the index of the first attribute whose name matches. -/
def findAttributeFrom (matchesName : QualifiedName → QualifiedName → Bool)
    (name : QualifiedName) : List Attribute → Nat → Option Nat
  | [], _ => none
  | attr :: rest, i =>
    if matchesName attr.name name then some i
    else findAttributeFrom matchesName name rest (i + 1)

/-- The function `findAttribute(Vector<Attribute>&, const QualifiedName&)`.
Returns the vector as the function leaves it, and the position of the attribute
the returned pointer designates (`none` for `nullptr`). -/
def findAttribute (matchesName : QualifiedName → QualifiedName → Bool)
    (attributes : List Attribute) (name : QualifiedName) : List Attribute × Option Nat :=
  (attributes, findAttributeFrom matchesName name attributes 0)

/-! ## `AtomicHTMLToken` -/

/-- Modelled from the spec: the macro `ASSERT(condition)`, defined outside the
sources: a no-op when assertions are compiled out, otherwise execution continues
only if the condition holds. -/
def ASSERT (assertionsEnabled condition : Bool) : Option Unit :=
  if assertionsEnabled && !condition then none else some ()

/-- The data members of `AtomicHTMLToken`. Members of class type are always
constructed (`m_name` null, `m_data` null, `m_doctypeData` null, `m_attributes`
empty); the scalar members have no value (`none`) until a constructor assigns
one. `m_externalCharacters` points into the buffer of the `HTMLToken`; it is
represented by the characters it points to. -/
structure AtomicHTMLToken where
  m_type : HTMLToken.TokenType
  m_name : AtomicString
  m_data : WTFString
  m_externalCharacters : Option DataVector
  m_externalCharactersLength : Option Nat
  m_externalCharactersIsAll8BitData : Option Bool
  m_doctypeData : Option DoctypeData
  m_selfClosing : Option Bool
  m_attributes : List Attribute
deriving DecidableEq, Repr

namespace AtomicHTMLToken

/-- The state of the members after the member initialisers of
`AtomicHTMLToken(HTMLToken&)` (only `m_type` is listed) and before its body. -/
def afterMemberInit (type : HTMLToken.TokenType) : AtomicHTMLToken :=
  { m_type := type
    m_name := nullAtom
    m_data := ⟨none⟩
    m_externalCharacters := none
    m_externalCharactersLength := none
    m_externalCharactersIsAll8BitData := none
    m_doctypeData := none
    m_selfClosing := none
    m_attributes := [] }

/-- One iteration of the loop of `initializeAttributes`, on the tokenizer
attribute `attr`, with `m_attributes` as built so far. -/
def initializeAttributesStep (matchesName : QualifiedName → QualifiedName → Bool)
    (m_attributes : List Attribute) (attr : HTMLToken.Attribute) : List Attribute :=
  if attr.name.isEmpty then m_attributes
  else
    let name : QualifiedName := ⟨nullAtom, AtomicString.ofVector attr.name, nullAtom⟩
    match findAttribute matchesName m_attributes name with
    | (m_attributes, none) => m_attributes ++ [⟨name, AtomicString.ofVector attr.value⟩]
    | (m_attributes, some _) => m_attributes

/-- The member function `AtomicHTMLToken::initializeAttributes`, as a function
from the old to the new `m_attributes`. `reserveInitialCapacity` does not change
the contents of the vector. The size of a `Vector` is itself an `unsigned`, so
`unsigned size = attributes.size()` loses nothing. -/
def initializeAttributes (matchesName : QualifiedName → QualifiedName → Bool)
    (m_attributes : List Attribute) (attributes : HTMLToken.AttributeList) : List Attribute :=
  let size := attributes.length
  if size = 0 then m_attributes
  else attributes.foldl (initializeAttributesStep matchesName) m_attributes

/-- The constructor `AtomicHTMLToken(HTMLToken&)`. Returns the new token and the
`HTMLToken` as the constructor leaves it (a DOCTYPE token gives up its
`DoctypeData`). `ASSERT_NOT_REACHED()` is `ASSERT(false)`. -/
def ofHTMLToken (matchesName : QualifiedName → QualifiedName → Bool)
    (assertionsEnabled : Bool) (token : HTMLToken) : Option (AtomicHTMLToken × HTMLToken) :=
  let self := afterMemberInit token.type
  match self.m_type with
  | .Uninitialized => do
    ASSERT assertionsEnabled false
    pure (self, token)
  | .DOCTYPE =>
    let self := { self with m_name := AtomicString.ofVector token.name }
    let (doctypeData, token) := token.releaseDoctypeData
    let self := { self with m_doctypeData := doctypeData }
    some (self, token)
  | .EndOfFile => some (self, token)
  | .StartTag | .EndTag =>
    let self := { self with m_selfClosing := some token.selfClosing }
    let self := { self with m_name := AtomicString.ofVector token.name }
    let self := { self with
      m_attributes := initializeAttributes matchesName self.m_attributes token.attributes }
    some (self, token)
  | .Comment =>
    let self :=
      if token.commentIsAll8BitData then
        { self with m_data := WTFString.make8BitFrom16BitSource token.comment }
      else
        { self with m_data := WTFString.ofVector token.comment }
    some (self, token)
  | .Character =>
    let self := { self with m_externalCharacters := some token.characters }
    let self := { self with m_externalCharactersLength := some token.characters.length }
    let self := { self with
      m_externalCharactersIsAll8BitData := some token.charactersIsAll8BitData }
    some (self, token)

/-- The constructor `AtomicHTMLToken(HTMLToken::Type, const AtomicString& name,
Vector<Attribute>&&)`, commented "Only StartTag or EndTag" at its declaration. -/
def ofTypeAndName (assertionsEnabled : Bool) (type : HTMLToken.TokenType)
    (name : AtomicString) (attributes : List Attribute) : Option AtomicHTMLToken := do
  let self : AtomicHTMLToken :=
    { m_type := type
      m_name := name
      m_data := ⟨none⟩
      m_externalCharacters := none
      m_externalCharactersLength := none
      m_externalCharactersIsAll8BitData := none
      m_doctypeData := none
      m_selfClosing := some false
      m_attributes := attributes }
  ASSERT assertionsEnabled (type == .StartTag || type == .EndTag)
  pure self

/-- The accessor `type()`. -/
def type (self : AtomicHTMLToken) : HTMLToken.TokenType :=
  self.m_type

/-- The accessor `name()`. -/
def name (assertionsEnabled : Bool) (self : AtomicHTMLToken) : Option AtomicString := do
  ASSERT assertionsEnabled
    (self.m_type == .StartTag || self.m_type == .EndTag || self.m_type == .DOCTYPE)
  pure self.m_name

/-- The member function `setName(const AtomicString&)`. -/
def setName (assertionsEnabled : Bool) (self : AtomicHTMLToken) (name : AtomicString) :
    Option AtomicHTMLToken := do
  ASSERT assertionsEnabled
    (self.m_type == .StartTag || self.m_type == .EndTag || self.m_type == .DOCTYPE)
  pure { self with m_name := name }

/-- The accessor `selfClosing()`; `none` also when `m_selfClosing` has no value. -/
def selfClosing (assertionsEnabled : Bool) (self : AtomicHTMLToken) : Option Bool := do
  ASSERT assertionsEnabled (self.m_type == .StartTag || self.m_type == .EndTag)
  self.m_selfClosing

/-- The accessor `attributes()` (both overloads return `m_attributes`). -/
def attributes (assertionsEnabled : Bool) (self : AtomicHTMLToken) : Option (List Attribute) := do
  ASSERT assertionsEnabled (self.m_type == .StartTag || self.m_type == .EndTag)
  pure self.m_attributes

/-- The accessor `characters()`; `none` also when the pointer has no value. -/
def characters (assertionsEnabled : Bool) (self : AtomicHTMLToken) : Option DataVector := do
  ASSERT assertionsEnabled (self.m_type == .Character)
  self.m_externalCharacters

/-- The accessor `charactersLength()`; `none` also when the length has no value. -/
def charactersLength (assertionsEnabled : Bool) (self : AtomicHTMLToken) : Option Nat := do
  ASSERT assertionsEnabled (self.m_type == .Character)
  self.m_externalCharactersLength

/-- The accessor `charactersIsAll8BitData()`, which has no assertion. -/
def charactersIsAll8BitData (self : AtomicHTMLToken) : Option Bool :=
  self.m_externalCharactersIsAll8BitData

/-- The accessor `comment()`. -/
def comment (assertionsEnabled : Bool) (self : AtomicHTMLToken) : Option WTFString := do
  ASSERT assertionsEnabled (self.m_type == .Comment)
  pure self.m_data

end AtomicHTMLToken

/-! ## What `initializeAttributes` is expected to compute -/

/-- The DOM attribute that `initializeAttributes` appends for a tokenizer
attribute: null prefix and namespace, the interned name and value. -/
def toAttribute (attr : HTMLToken.Attribute) : Attribute :=
  ⟨⟨nullAtom, AtomicString.ofVector attr.name, nullAtom⟩, AtomicString.ofVector attr.value⟩

/-- The tokenizer attribute `attr`, coming after the attributes `earlier`, is
kept: its name is not empty and did not occur among the earlier ones. -/
def keptAfter (earlier : List HTMLToken.Attribute) (attr : HTMLToken.Attribute) : Bool :=
  !attr.name.isEmpty && !earlier.any (fun e => e.name == attr.name)

/-- The attributes of `input` that are kept, in the order of the input, when
`input` comes after the attributes `earlier`. -/
def removeEmptyAndRepeatedAfter (earlier : List HTMLToken.Attribute) :
    List HTMLToken.Attribute → List HTMLToken.Attribute
  | [] => []
  | attr :: rest =>
    if keptAfter earlier attr then attr :: removeEmptyAndRepeatedAfter (earlier ++ [attr]) rest
    else removeEmptyAndRepeatedAfter (earlier ++ [attr]) rest

/-- The input list with every empty-named attribute removed and every attribute
removed whose name already occurred earlier in the input. -/
def removeEmptyAndRepeated (input : List HTMLToken.Attribute) : List HTMLToken.Attribute :=
  removeEmptyAndRepeatedAfter [] input

/-! ## `CSSFunctionValue` -/

/-- Modelled from the spec: the keyword identifiers `CSSValueID`, an enumeration
generated outside the sources, as natural numbers. -/
abbrev CSSValueID := Nat

/-- Modelled from the spec: the identifier `CSSValueInvalid`, the first
enumerator of `CSSValueID`. -/
def CSSValueInvalid : CSSValueID := 0

/-- Modelled from the spec: the parser struct `CSSParserFunction`
(`CSSParserValues.h` is not among the sources): a name and an optional argument
list. `L` is the type `CSSParserValueList`. -/
structure CSSParserFunction (L : Type) where
  name : String
  args : Option L

/-- Modelled from the spec: the parser struct `CSSParserValue`
(`CSSParserValues.h` is not among the sources), with the members that
`CSSFunctionValue` writes. -/
structure CSSParserValue (L : Type) where
  id : CSSValueID
  unit : Int
  function : Option (CSSParserFunction L)

/-- Modelled from the spec: the unit tag `CSSParserValue::Function`; its numeric
value plays no role below. -/
def CSSParserValue.Function : Int := 0x100001

/-- The data members of `CSSFunctionValue`, as the constructors of
`CSSFunctionValue.cpp` initialise them. `V` is the type `CSSValueList`. A
`String` is represented here by its text, the null string by the empty text. -/
structure CSSFunctionValue (V : Type) where
  m_name : CSSValueID
  m_nameDeprecated : String
  m_args : Option V

/-- Modelled from the spec: the helper `compareCSSValuePtr` (`CSSValue.h` is not
among the sources) on two `RefPtr<CSSValueList>`: two null pointers are equal, a
null and a non-null pointer are not, two non-null pointers are compared with
`CSSValueList::equals`. -/
def compareCSSValuePtr {V : Type} (listEquals : V → V → Bool) : Option V → Option V → Bool
  | some first, some second => listEquals first second
  | some _, none => false
  | none, second => !second.isSome

namespace CSSFunctionValue

variable {V L M : Type}

/-- The constructor `CSSFunctionValue(CSSParserFunction*)`; `m_name` is not in
the initialiser list and keeps the default of its declaration,
`CSSValueInvalid`. -/
def ofParserFunction (createFromParserValueList : L → V) (function : CSSParserFunction L) :
    CSSFunctionValue V :=
  { m_name := CSSValueInvalid
    m_nameDeprecated := function.name
    m_args :=
      match function.args with
      | some args => some (createFromParserValueList args)
      | none => none }

/-- The constructor `CSSFunctionValue(const String& name, Ref<CSSValueList>&&)`;
`m_name` keeps the default of its declaration, `CSSValueInvalid`. -/
def ofNameAndArgs (name : String) (args : V) : CSSFunctionValue V :=
  { m_name := CSSValueInvalid
    m_nameDeprecated := name
    m_args := some args }

/-- The constructor `CSSFunctionValue(CSSValueID keyword)`; the name is the null
string and there is no argument list. -/
def ofKeyword (keyword : CSSValueID) : CSSFunctionValue V :=
  { m_name := keyword
    m_nameDeprecated := ""
    m_args := none }

/-- The member function `customCSSText`. The `StringBuilder` is the text
appended so far. -/
def customCSSText (getValueName : CSSValueID → String) (cssText : V → String)
    (self : CSSFunctionValue V) : String :=
  let result := ""
  let result :=
    if self.m_name != CSSValueInvalid then
      (result ++ getValueName self.m_name).push '('
    else
      result ++ self.m_nameDeprecated
  let result :=
    match self.m_args with
    | some args => result ++ cssText args
    | none => result
  let result := result.push ')'
  result

/-- The member function `equals`. -/
def equals (listEquals : V → V → Bool) (self other : CSSFunctionValue V) : Bool :=
  self.m_name == other.m_name && compareCSSValuePtr listEquals self.m_args other.m_args

/-- The member function `buildParserValueSubstitutingVariables`. Returns the
boolean result and `*result` as the function leaves it. `emptyList` is a freshly
constructed `CSSParserValueList`; `buildList args argList customProperties` is
`args->buildParserValueListSubstitutingVariables(argList, customProperties)`,
returning its result and `*argList` as it leaves it. -/
def buildParserValueSubstitutingVariables (emptyList : L) (buildList : V → L → M → Bool × L)
    (self : CSSFunctionValue V) (result : CSSParserValue L) (customProperties : M) :
    Bool × CSSParserValue L :=
  let result := { result with id := CSSValueInvalid }
  let result := { result with unit := CSSParserValue.Function }
  let function : CSSParserFunction L := { name := "", args := none }
  let function := { function with name := self.m_nameDeprecated }
  let success := true
  match self.m_args with
  | some args =>
    let argList := emptyList
    let (success, argList) := buildList args argList customProperties
    let function := { function with args := some argList }
    (success, { result with function := some function })
  | none =>
    (success, { result with function := some function })

end CSSFunctionValue

/-! ## Properties of `findAttribute` -/

theorem findAttributeFrom_eq_none (M : QualifiedName → QualifiedName → Bool)
    (name : QualifiedName) (l : List Attribute) (k : Nat) :
    findAttributeFrom M name l k = none ↔ ∀ a ∈ l, M a.name name = false := by
  induction l generalizing k with
  | nil => simp [findAttributeFrom]
  | cons a rest ih =>
    by_cases h : M a.name name = true
    · simp [findAttributeFrom, h]
    · simp only [Bool.not_eq_true] at h
      simp [findAttributeFrom, h, ih]

theorem findAttributeFrom_eq_some (M : QualifiedName → QualifiedName → Bool)
    (name : QualifiedName) (l : List Attribute) (k i : Nat) :
    findAttributeFrom M name l k = some i ↔
      ∃ j a, i = k + j ∧ l[j]? = some a ∧ M a.name name = true ∧
        ∀ j2 b, j2 < j → l[j2]? = some b → M b.name name = false := by
  induction l generalizing k with
  | nil => simp [findAttributeFrom]
  | cons a rest ih =>
    by_cases h : M a.name name = true
    · simp only [findAttributeFrom, h, if_true, Option.some.injEq]
      constructor
      · intro hk
        exact ⟨0, a, by omega, by simp, h, by intro j2 b hlt; omega⟩
      · rintro ⟨j, b, hi, hget, hb, hmin⟩
        cases j with
        | zero => omega
        | succ j =>
          have := hmin 0 a (by omega) (by simp)
          rw [h] at this
          cases this
    · simp only [Bool.not_eq_true] at h
      simp only [findAttributeFrom, h, Bool.false_eq_true, if_false, ih]
      constructor
      · rintro ⟨j, b, hi, hget, hb, hmin⟩
        refine ⟨j + 1, b, by omega, by simpa using hget, hb, ?_⟩
        intro j2 c hlt hc
        cases j2 with
        | zero =>
          simp at hc
          subst hc
          exact h
        | succ j2 => exact hmin j2 c (by omega) (by simpa using hc)
      · rintro ⟨j, b, hi, hget, hb, hmin⟩
        cases j with
        | zero =>
          simp at hget
          subst hget
          rw [h] at hb
          cases hb
        | succ j =>
          refine ⟨j, b, by omega, by simpa using hget, hb, ?_⟩
          intro j2 c hlt hc
          exact hmin (j2 + 1) c (by omega) (by simpa using hc)

/-- Claim C8. `findAttribute` leaves the vector as it was; it returns the null
pointer exactly when no attribute of the vector has a name that matches `name`;
and it returns a pointer to position `i` exactly when the attribute at
position `i` matches and no attribute at a smaller position does. -/
theorem findAttribute_smallest_matching_index (matchesName : QualifiedName → QualifiedName → Bool)
    (attributes : List Attribute) (name : QualifiedName) :
    (findAttribute matchesName attributes name).1 = attributes ∧
    ((findAttribute matchesName attributes name).2 = none ↔
      ∀ a ∈ attributes, matchesName a.name name = false) ∧
    (∀ i, (findAttribute matchesName attributes name).2 = some i ↔
      ∃ a, attributes[i]? = some a ∧ matchesName a.name name = true ∧
        ∀ j b, j < i → attributes[j]? = some b → matchesName b.name name = false) := by
  refine ⟨rfl, findAttributeFrom_eq_none matchesName name attributes 0, ?_⟩
  intro i
  simp only [findAttribute, findAttributeFrom_eq_some, Nat.zero_add]
  constructor
  · rintro ⟨j, a, rfl, h⟩
    exact ⟨a, h⟩
  · rintro ⟨a, h⟩
    exact ⟨i, a, rfl, h⟩

/-! ## Properties of `initializeAttributes` -/

theorem initializeAttributesStep_eq (M : QualifiedName → QualifiedName → Bool)
    (m : List Attribute) (attr : HTMLToken.Attribute) :
    AtomicHTMLToken.initializeAttributesStep M m attr =
      if attr.name = [] then m
      else if ∀ a ∈ m, M a.name (toAttribute attr).name = false then m ++ [toAttribute attr]
      else m := by
  unfold AtomicHTMLToken.initializeAttributesStep
  by_cases h : attr.name = []
  · simp [h]
  · have h2 : attr.name.isEmpty = false := by
      cases hn : attr.name with
      | nil => exact absurd hn h
      | cons c cs => rfl
    simp only [h2, h, if_false, Bool.false_eq_true, findAttribute]
    by_cases hf : ∀ a ∈ m, M a.name (toAttribute attr).name = false
    · have hnone := (findAttributeFrom_eq_none M (toAttribute attr).name m 0).2 hf
      simp only [toAttribute] at hnone
      simp only [hnone]
      rw [if_pos hf]
      rfl
    · have hsome : findAttributeFrom M (toAttribute attr).name m 0 ≠ none := fun hnone =>
        hf ((findAttributeFrom_eq_none M (toAttribute attr).name m 0).1 hnone)
      obtain ⟨i, hi⟩ := Option.ne_none_iff_exists.1 hsome
      simp only [toAttribute] at hi
      simp only [← hi]
      rw [if_neg hf]

theorem initializeAttributes_eq_foldl (M : QualifiedName → QualifiedName → Bool)
    (m : List Attribute) (attributes : HTMLToken.AttributeList) :
    AtomicHTMLToken.initializeAttributes M m attributes =
      attributes.foldl (AtomicHTMLToken.initializeAttributesStep M) m := by
  unfold AtomicHTMLToken.initializeAttributes
  cases attributes with
  | nil => simp
  | cons a rest => simp

theorem initializeAttributesStep_pairwise (M : QualifiedName → QualifiedName → Bool)
    (m : List Attribute) (attr : HTMLToken.Attribute)
    (hm : m.Pairwise (fun a b => M a.name b.name = false)) :
    (AtomicHTMLToken.initializeAttributesStep M m attr).Pairwise
      (fun a b => M a.name b.name = false) := by
  rw [initializeAttributesStep_eq]
  split
  · exact hm
  · split
    · rename_i hf
      rw [List.pairwise_append]
      refine ⟨hm, List.pairwise_singleton _ _, ?_⟩
      intro a ha b hb
      rw [List.mem_singleton] at hb
      subst hb
      exact hf a ha
    · exact hm

theorem foldl_initializeAttributesStep_pairwise (M : QualifiedName → QualifiedName → Bool)
    (attributes : HTMLToken.AttributeList) (m : List Attribute)
    (hm : m.Pairwise (fun a b => M a.name b.name = false)) :
    (attributes.foldl (AtomicHTMLToken.initializeAttributesStep M) m).Pairwise
      (fun a b => M a.name b.name = false) := by
  induction attributes generalizing m with
  | nil => exact hm
  | cons a rest ih =>
    rw [List.foldl_cons]
    exact ih _ (initializeAttributesStep_pairwise M m a hm)

theorem pairwise_getElem?_lt {α : Type} (R : α → α → Prop) (l : List α) (h : l.Pairwise R)
    (i j : Nat) (a b : α) (hij : i < j) (ha : l[i]? = some a) (hb : l[j]? = some b) :
    R a b := by
  induction l generalizing i j with
  | nil => simp at ha
  | cons x rest ih =>
    rw [List.pairwise_cons] at h
    cases j with
    | zero => omega
    | succ j =>
      rw [List.getElem?_cons_succ] at hb
      cases i with
      | zero =>
        rw [List.getElem?_cons_zero, Option.some.injEq] at ha
        subst ha
        exact h.1 b (List.getElem?_mem hb)
      | succ i =>
        rw [List.getElem?_cons_succ] at ha
        exact ih h.2 i j (by omega) ha hb

/-- Claim C1. Starting from an empty `m_attributes`, the vector built by
`initializeAttributes` holds no two attributes, at distinct positions `i` and
`j`, whose names match. The comparison `matchesName` stands for
`QualifiedName::matches`, of which only symmetry is used. -/
theorem initializeAttributes_deduplicated (matchesName : QualifiedName → QualifiedName → Bool)
    (hsymm : ∀ a b, matchesName a b = matchesName b a)
    (attributes : HTMLToken.AttributeList) (i j : Nat) (a b : Attribute) :
    i ≠ j →
    (AtomicHTMLToken.initializeAttributes matchesName [] attributes)[i]? = some a →
    (AtomicHTMLToken.initializeAttributes matchesName [] attributes)[j]? = some b →
    matchesName a.name b.name = false := by
  intro hij ha hb
  have hp := foldl_initializeAttributesStep_pairwise matchesName attributes [] List.Pairwise.nil
  rw [← initializeAttributes_eq_foldl] at hp
  rcases Nat.lt_or_gt_of_ne hij with hlt | hgt
  · exact pairwise_getElem?_lt _ _ hp i j a b hlt ha hb
  · rw [hsymm]
    exact pairwise_getElem?_lt _ _ hp j i b a hgt hb ha

theorem keptAfter_iff (earlier : List HTMLToken.Attribute) (attr : HTMLToken.Attribute) :
    keptAfter earlier attr = true ↔ attr.name ≠ [] ∧ ∀ e ∈ earlier, e.name ≠ attr.name := by
  unfold keptAfter
  cases hn : attr.name with
  | nil => simp
  | cons c cs => simp

theorem foldl_initializeAttributesStep_eq (M : QualifiedName → QualifiedName → Bool)
    (hnames : ∀ n1 n2 : DataVector,
      M ⟨nullAtom, AtomicString.ofVector n1, nullAtom⟩
        ⟨nullAtom, AtomicString.ofVector n2, nullAtom⟩ = true ↔ n1 = n2)
    (rest : HTMLToken.AttributeList) (m : List Attribute) (earlier : List HTMLToken.Attribute)
    (hinv : ∀ n : DataVector, n ≠ [] →
      ((∃ a ∈ m, M a.name ⟨nullAtom, AtomicString.ofVector n, nullAtom⟩ = true) ↔
        ∃ e ∈ earlier, e.name = n)) :
    rest.foldl (AtomicHTMLToken.initializeAttributesStep M) m =
      m ++ (removeEmptyAndRepeatedAfter earlier rest).map toAttribute := by
  induction rest generalizing m earlier with
  | nil => simp [removeEmptyAndRepeatedAfter]
  | cons attr rest ih =>
    rw [List.foldl_cons, initializeAttributesStep_eq, removeEmptyAndRepeatedAfter]
    by_cases hempty : attr.name = []
    · have hk : keptAfter earlier attr = false := by
        rw [← Bool.not_eq_true, keptAfter_iff]
        exact fun h => h.1 hempty
      rw [if_pos hempty, hk]
      simp only [Bool.false_eq_true, if_false]
      apply ih
      intro n hn
      rw [hinv n hn]
      constructor
      · rintro ⟨e, he, hen⟩
        exact ⟨e, List.mem_append_left _ he, hen⟩
      · rintro ⟨e, he, hen⟩
        rcases List.mem_append.1 he with he | he
        · exact ⟨e, he, hen⟩
        · rw [List.mem_singleton] at he
          subst he
          exact absurd (hen.symm.trans hempty) hn
    · rw [if_neg hempty]
      by_cases hf : ∀ a ∈ m, M a.name (toAttribute attr).name = false
      · have hk : keptAfter earlier attr = true := by
          rw [keptAfter_iff]
          refine ⟨hempty, ?_⟩
          intro e he hen
          obtain ⟨a, ha, hma⟩ := (hinv attr.name hempty).2 ⟨e, he, hen⟩
          have := hf a ha
          simp only [toAttribute] at this
          rw [hma] at this
          cases this
        rw [if_pos hf, hk]
        simp only [if_true, List.map_cons]
        rw [ih (m ++ [toAttribute attr]) (earlier ++ [attr])]
        · simp
        · intro n hn
          constructor
          · rintro ⟨a, ha, hma⟩
            rcases List.mem_append.1 ha with ha | ha
            · obtain ⟨e, he, hen⟩ := (hinv n hn).1 ⟨a, ha, hma⟩
              exact ⟨e, List.mem_append_left _ he, hen⟩
            · rw [List.mem_singleton] at ha
              subst ha
              exact ⟨attr, by simp, (hnames _ _).1 hma⟩
          · rintro ⟨e, he, hen⟩
            rcases List.mem_append.1 he with he | he
            · obtain ⟨a, ha, hma⟩ := (hinv n hn).2 ⟨e, he, hen⟩
              exact ⟨a, List.mem_append_left _ ha, hma⟩
            · rw [List.mem_singleton] at he
              subst he
              exact ⟨toAttribute e, by simp, (hnames _ _).2 hen⟩
      · have hk : keptAfter earlier attr = false := by
          rw [← Bool.not_eq_true, keptAfter_iff]
          rintro ⟨-, hall⟩
          apply hf
          intro a ha
          rw [← Bool.not_eq_true]
          intro hma
          obtain ⟨e, he, hen⟩ := (hinv attr.name hempty).1 ⟨a, ha, hma⟩
          exact hall e he hen
        rw [if_neg hf, hk]
        simp only [Bool.false_eq_true, if_false]
        apply ih
        intro n hn
        rw [hinv n hn]
        constructor
        · rintro ⟨e, he, hen⟩
          exact ⟨e, List.mem_append_left _ he, hen⟩
        · rintro ⟨e, he, hen⟩
          rcases List.mem_append.1 he with he | he
          · exact ⟨e, he, hen⟩
          · rw [List.mem_singleton] at he
            subst he
            have hex : ∃ a ∈ m, M a.name (toAttribute e).name = true := by
              by_contra hcon
              apply hf
              intro a ha
              rw [← Bool.not_eq_true]
              exact fun hma => hcon ⟨a, ha, hma⟩
            obtain ⟨a, ha, hma⟩ := hex
            obtain ⟨e2, he2, hen2⟩ := (hinv e.name hempty).1 ⟨a, ha, hma⟩
            exact ⟨e2, he2, hen2.trans hen⟩

theorem removeEmptyAndRepeatedAfter_sublist (earlier rest : List HTMLToken.Attribute) :
    (removeEmptyAndRepeatedAfter earlier rest).Sublist rest := by
  induction rest generalizing earlier with
  | nil => simp [removeEmptyAndRepeatedAfter]
  | cons attr rest ih =>
    rw [removeEmptyAndRepeatedAfter]
    split
    · exact (ih _).cons₂ attr
    · exact (ih _).cons attr

theorem removeEmptyAndRepeatedAfter_filter_name (n : DataVector) (hn : n ≠ [])
    (earlier rest : List HTMLToken.Attribute) :
    (removeEmptyAndRepeatedAfter earlier rest).filter (fun b => b.name == n) =
      if ∃ e ∈ earlier, e.name = n then []
      else (rest.find? (fun b => b.name == n)).toList := by
  induction rest generalizing earlier with
  | nil => simp [removeEmptyAndRepeatedAfter]
  | cons attr rest ih =>
    rw [removeEmptyAndRepeatedAfter]
    by_cases hk : keptAfter earlier attr = true
    · rw [if_pos hk]
      rw [keptAfter_iff] at hk
      by_cases han : attr.name = n
      · subst han
        have hno : ¬ ∃ e ∈ earlier, e.name = attr.name := by
          rintro ⟨e, he, hen⟩
          exact hk.2 e he hen
        rw [if_neg hno, List.filter_cons_of_pos (by simp), ih,
          if_pos ⟨attr, by simp, rfl⟩]
        simp
      · have hiff : (∃ e ∈ earlier ++ [attr], e.name = n) ↔ ∃ e ∈ earlier, e.name = n := by
          constructor
          · rintro ⟨e, he, hen⟩
            rcases List.mem_append.1 he with he | he
            · exact ⟨e, he, hen⟩
            · rw [List.mem_singleton] at he
              subst he
              exact absurd hen han
          · rintro ⟨e, he, hen⟩
            exact ⟨e, List.mem_append_left _ he, hen⟩
        rw [List.filter_cons_of_neg (by simpa using han), ih, List.find?_cons_of_neg _ (by simpa using han)]
        simp only [hiff]
    · rw [if_neg hk]
      by_cases han : attr.name = n
      · subst han
        have hyes : ∃ e ∈ earlier, e.name = attr.name := by
          by_contra hcon
          apply hk
          rw [keptAfter_iff]
          exact ⟨hn, fun e he hen => hcon ⟨e, he, hen⟩⟩
        rw [ih, if_pos hyes, if_pos]
        obtain ⟨e, he, hen⟩ := hyes
        exact ⟨e, List.mem_append_left _ he, hen⟩
      · have hiff : (∃ e ∈ earlier ++ [attr], e.name = n) ↔ ∃ e ∈ earlier, e.name = n := by
          constructor
          · rintro ⟨e, he, hen⟩
            rcases List.mem_append.1 he with he | he
            · exact ⟨e, he, hen⟩
            · rw [List.mem_singleton] at he
              subst he
              exact absurd hen han
          · rintro ⟨e, he, hen⟩
            exact ⟨e, List.mem_append_left _ he, hen⟩
        rw [ih, List.find?_cons_of_neg _ (by simpa using han)]
        simp only [hiff]

/-- Claim C2. Starting from an empty `m_attributes`, `initializeAttributes`
builds exactly the input with the empty-named attributes and the attributes
whose name occurred earlier removed, in the order of the input, each converted
to a DOM attribute; so for every non-empty name of the input the result holds
exactly one attribute with that local name, and its value is the value of the
first input attribute with that name. The comparison `matchesName` stands for
`QualifiedName::matches`; what is used of it is that two names with null prefix
and null namespace match exactly when their local names are the same string. -/
theorem initializeAttributes_eq_removeEmptyAndRepeated
    (matchesName : QualifiedName → QualifiedName → Bool)
    (hnames : ∀ n1 n2 : DataVector,
      matchesName ⟨nullAtom, AtomicString.ofVector n1, nullAtom⟩
        ⟨nullAtom, AtomicString.ofVector n2, nullAtom⟩ = true ↔ n1 = n2)
    (attributes : HTMLToken.AttributeList) :
    AtomicHTMLToken.initializeAttributes matchesName [] attributes =
      (removeEmptyAndRepeated attributes).map toAttribute ∧
    (removeEmptyAndRepeated attributes).Sublist attributes ∧
    ∀ attr ∈ attributes, attr.name ≠ [] →
      ∃ first, attributes.find? (fun b => b.name == attr.name) = some first ∧
        (AtomicHTMLToken.initializeAttributes matchesName [] attributes).filter
            (fun r => r.name.localName == AtomicString.ofVector attr.name) =
          [⟨⟨nullAtom, AtomicString.ofVector attr.name, nullAtom⟩,
            AtomicString.ofVector first.value⟩] := by
  have h1 : AtomicHTMLToken.initializeAttributes matchesName [] attributes =
      (removeEmptyAndRepeated attributes).map toAttribute := by
    rw [initializeAttributes_eq_foldl,
      foldl_initializeAttributesStep_eq matchesName hnames attributes [] []]
    · simp [removeEmptyAndRepeated]
    · intro n _
      simp
  refine ⟨h1, removeEmptyAndRepeatedAfter_sublist [] attributes, ?_⟩
  intro attr hmem hne
  have hsome : (attributes.find? (fun b => b.name == attr.name)).isSome = true := by
    rw [List.find?_isSome]
    exact ⟨attr, hmem, by simp⟩
  obtain ⟨first, hfirst⟩ := Option.isSome_iff_exists.1 hsome
  refine ⟨first, hfirst, ?_⟩
  have hname : first.name = attr.name := by
    have := List.find?_some hfirst
    simpa using this
  have hfun : ((fun r : Attribute => r.name.localName == AtomicString.ofVector attr.name)
      ∘ toAttribute) = fun b => b.name == attr.name := by
    funext b
    simp [toAttribute, AtomicString.ofVector]
  rw [h1, List.filter_map, hfun, removeEmptyAndRepeated,
    removeEmptyAndRepeatedAfter_filter_name attr.name hne [] attributes, hfirst]
  simp [toAttribute, hname]

/-! ### The instance `QualifiedName.matches` -/

theorem QualifiedName.matches_comm (a b : QualifiedName) :
    QualifiedName.matches a b = QualifiedName.matches b a := by
  unfold QualifiedName.matches
  rw [Bool.eq_iff_iff]
  simp only [Bool.or_eq_true, Bool.and_eq_true, decide_eq_true_eq]
  constructor
  · rintro (h | ⟨h1, h2⟩)
    · exact Or.inl h.symm
    · exact Or.inr ⟨h1.symm, h2.symm⟩
  · rintro (h | ⟨h1, h2⟩)
    · exact Or.inl h.symm
    · exact Or.inr ⟨h1.symm, h2.symm⟩

theorem QualifiedName.matches_of_local_names (n1 n2 : DataVector) :
    QualifiedName.matches ⟨nullAtom, AtomicString.ofVector n1, nullAtom⟩
      ⟨nullAtom, AtomicString.ofVector n2, nullAtom⟩ = true ↔ n1 = n2 := by
  unfold QualifiedName.matches
  simp [AtomicString.ofVector]

/-- The claim C1 at the attribute list `a="1" b="2" a="3"`, positions 0 and 1 of
the result. -/
theorem initializeAttributes_deduplicated_witness :
    (∀ a b, QualifiedName.matches a b = QualifiedName.matches b a) ∧
    (AtomicHTMLToken.initializeAttributes QualifiedName.matches []
      [⟨[97], [49]⟩, ⟨[98], [50]⟩, ⟨[97], [51]⟩])[0]? = some (toAttribute ⟨[97], [49]⟩) ∧
    (AtomicHTMLToken.initializeAttributes QualifiedName.matches []
      [⟨[97], [49]⟩, ⟨[98], [50]⟩, ⟨[97], [51]⟩])[1]? = some (toAttribute ⟨[98], [50]⟩) ∧
    QualifiedName.matches (toAttribute ⟨[97], [49]⟩).name (toAttribute ⟨[98], [50]⟩).name
      = false :=
  ⟨QualifiedName.matches_comm, by decide, by decide,
    initializeAttributes_deduplicated QualifiedName.matches QualifiedName.matches_comm
      [⟨[97], [49]⟩, ⟨[98], [50]⟩, ⟨[97], [51]⟩] 0 1 _ _ (by decide) (by decide) (by decide)⟩

/-- The claim C2 at the attribute list `a="1" ""="9" b="2" a="3"`. -/
theorem initializeAttributes_eq_removeEmptyAndRepeated_witness :
    (∀ n1 n2 : DataVector,
      QualifiedName.matches ⟨nullAtom, AtomicString.ofVector n1, nullAtom⟩
        ⟨nullAtom, AtomicString.ofVector n2, nullAtom⟩ = true ↔ n1 = n2) ∧
    AtomicHTMLToken.initializeAttributes QualifiedName.matches []
        [⟨[97], [49]⟩, ⟨[], [57]⟩, ⟨[98], [50]⟩, ⟨[97], [51]⟩] =
      [toAttribute ⟨[97], [49]⟩, toAttribute ⟨[98], [50]⟩] :=
  ⟨QualifiedName.matches_of_local_names,
    (initializeAttributes_eq_removeEmptyAndRepeated QualifiedName.matches
      QualifiedName.matches_of_local_names
      [⟨[97], [49]⟩, ⟨[], [57]⟩, ⟨[98], [50]⟩, ⟨[97], [51]⟩]).1.trans (by decide)⟩

/-! ## Properties of `CSSFunctionValue` -/

/-- Claim C3. The text produced by `customCSSText` is: the keyword name followed
by `(` when `m_name` is not `CSSValueInvalid`, otherwise the stored name
`m_nameDeprecated` alone; then the text of the argument list, or nothing when
there is no argument list; then one `)`. -/
theorem customCSSText_eq {V : Type} (getValueName : CSSValueID → String) (cssText : V → String)
    (self : CSSFunctionValue V) :
    CSSFunctionValue.customCSSText getValueName cssText self =
      (if self.m_name ≠ CSSValueInvalid then getValueName self.m_name ++ "("
        else self.m_nameDeprecated) ++
      (match self.m_args with
        | some args => cssText args
        | none => "") ++
      ")" := by
  unfold CSSFunctionValue.customCSSText
  apply String.ext
  by_cases h : self.m_name = CSSValueInvalid
  · cases hargs : self.m_args <;> simp [h]
  · cases hargs : self.m_args <;> simp [h]

/-- Claim C4. `buildParserValueSubstitutingVariables` sets the id of `*result`
to `CSSValueInvalid`, its unit to `Function` and the name of its function to
`m_nameDeprecated`. Without an argument list it returns `true` and the parser
function has no argument list; with one it returns what
`buildParserValueListSubstitutingVariables` returns, and the parser function
holds the list that call built, also when the call returned `false`. -/
theorem buildParserValueSubstitutingVariables_eq {V L M : Type} (emptyList : L)
    (buildList : V → L → M → Bool × L) (self : CSSFunctionValue V)
    (result : CSSParserValue L) (customProperties : M) :
    CSSFunctionValue.buildParserValueSubstitutingVariables emptyList buildList self result
        customProperties =
      match self.m_args with
      | none =>
        (true,
          { id := CSSValueInvalid
            unit := CSSParserValue.Function
            function := some { name := self.m_nameDeprecated, args := none } })
      | some args =>
        ((buildList args emptyList customProperties).1,
          { id := CSSValueInvalid
            unit := CSSParserValue.Function
            function := some
              { name := self.m_nameDeprecated
                args := some (buildList args emptyList customProperties).2 } }) := by
  unfold CSSFunctionValue.buildParserValueSubstitutingVariables
  cases self.m_args <;> rfl

theorem customCSSText_of_invalid {V : Type} (getValueName : CSSValueID → String)
    (cssText : V → String) (self : CSSFunctionValue V) (h : self.m_name = CSSValueInvalid) :
    (CSSFunctionValue.customCSSText getValueName cssText self).data =
      self.m_nameDeprecated.data ++
        ((match self.m_args with
          | some args => cssText args
          | none => "").data ++ [')']) := by
  unfold CSSFunctionValue.customCSSText
  cases hargs : self.m_args <;> simp [h]

/-- Claim C7. `equals` compares the keyword ids and the argument lists and nothing
else: it is `true` exactly when the keyword ids are the same and
`compareCSSValuePtr` finds the argument lists equal, so it is `false` when the
keyword ids differ and `false` when the argument lists are found unequal. It
does not look at `m_nameDeprecated`: replacing the stored names of both operands
leaves its result as it was. Two values built by `CSSFunctionValue(name, args)` from different names
and one argument list that equals itself have `m_name = CSSValueInvalid`, are
`equals`, and have different `customCSSText`; and two such values exist, built
by `CSSFunctionValue(CSSParserFunction*)` from the parser functions `a(` and
`b(` without arguments. -/
theorem equals_ignores_nameDeprecated {V L : Type} (listEquals : V → V → Bool)
    (getValueName : CSSValueID → String) (cssText : V → String)
    (createFromParserValueList : L → V) :
    (∀ a b : CSSFunctionValue V,
      CSSFunctionValue.equals listEquals a b = true ↔
        a.m_name = b.m_name ∧ compareCSSValuePtr listEquals a.m_args b.m_args = true) ∧
    (∀ a b : CSSFunctionValue V, a.m_name ≠ b.m_name →
      CSSFunctionValue.equals listEquals a b = false) ∧
    (∀ a b : CSSFunctionValue V, compareCSSValuePtr listEquals a.m_args b.m_args = false →
      CSSFunctionValue.equals listEquals a b = false) ∧
    (∀ (a b : CSSFunctionValue V) (n1 n2 : String),
      CSSFunctionValue.equals listEquals { a with m_nameDeprecated := n1 }
        { b with m_nameDeprecated := n2 } = CSSFunctionValue.equals listEquals a b) ∧
    (∀ a b : CSSFunctionValue V, a.m_name = b.m_name →
      compareCSSValuePtr listEquals a.m_args b.m_args = true →
      CSSFunctionValue.equals listEquals a b = true) ∧
    (∀ (n1 n2 : String) (args : V), n1 ≠ n2 → listEquals args args = true →
      (CSSFunctionValue.ofNameAndArgs n1 args).m_name = CSSValueInvalid ∧
      (CSSFunctionValue.ofNameAndArgs n2 args).m_name = CSSValueInvalid ∧
      CSSFunctionValue.equals listEquals (CSSFunctionValue.ofNameAndArgs n1 args)
        (CSSFunctionValue.ofNameAndArgs n2 args) = true ∧
      CSSFunctionValue.customCSSText getValueName cssText (CSSFunctionValue.ofNameAndArgs n1 args)
        ≠ CSSFunctionValue.customCSSText getValueName cssText
            (CSSFunctionValue.ofNameAndArgs n2 args)) ∧
    (∃ x y : CSSFunctionValue V,
      x = CSSFunctionValue.ofParserFunction createFromParserValueList ⟨"a(", none⟩ ∧
      y = CSSFunctionValue.ofParserFunction createFromParserValueList ⟨"b(", none⟩ ∧
      x.m_name = CSSValueInvalid ∧ y.m_name = CSSValueInvalid ∧ x.m_args = y.m_args ∧
      x.m_nameDeprecated ≠ y.m_nameDeprecated ∧
      CSSFunctionValue.equals listEquals x y = true ∧
      CSSFunctionValue.customCSSText getValueName cssText x = "a()" ∧
      CSSFunctionValue.customCSSText getValueName cssText y = "b()" ∧
      CSSFunctionValue.customCSSText getValueName cssText x ≠
        CSSFunctionValue.customCSSText getValueName cssText y) := by
  refine ⟨?_, ?_, ?_, fun a b n1 n2 => rfl, ?_, ?_, ?_⟩
  · intro a b
    simp [CSSFunctionValue.equals]
  · intro a b hname
    simp [CSSFunctionValue.equals, hname]
  · intro a b hargs
    simp [CSSFunctionValue.equals, hargs]
  · intro a b hname hargs
    simp [CSSFunctionValue.equals, hname, hargs]
  · intro n1 n2 args hne hrefl
    refine ⟨rfl, rfl, ?_, ?_⟩
    · simp [CSSFunctionValue.equals, CSSFunctionValue.ofNameAndArgs, compareCSSValuePtr, hrefl]
    · intro heq
      have hd := congrArg String.data heq
      rw [customCSSText_of_invalid _ _ _ rfl, customCSSText_of_invalid _ _ _ rfl] at hd
      simp only [CSSFunctionValue.ofNameAndArgs] at hd
      exact hne (String.ext (List.append_cancel_right hd))
  · refine ⟨_, _, rfl, rfl, rfl, rfl, rfl, ?_, ?_, ?_, ?_, ?_⟩
    · simp [CSSFunctionValue.ofParserFunction]
    · simp [CSSFunctionValue.equals, CSSFunctionValue.ofParserFunction, compareCSSValuePtr]
    · apply String.ext
      simp [CSSFunctionValue.customCSSText, CSSFunctionValue.ofParserFunction, CSSValueInvalid]
    · apply String.ext
      simp [CSSFunctionValue.customCSSText, CSSFunctionValue.ofParserFunction, CSSValueInvalid]
    · intro heq
      have hd := congrArg String.data heq
      rw [customCSSText_of_invalid _ _ _ rfl, customCSSText_of_invalid _ _ _ rfl] at hd
      simp [CSSFunctionValue.ofParserFunction] at hd

/-! ## Properties of the constructors of `AtomicHTMLToken` -/

theorem make8BitFrom16BitSource_characters (v : DataVector) (h : ∀ c ∈ v, c < 256) :
    (WTFString.make8BitFrom16BitSource v).characters = v := by
  unfold WTFString.make8BitFrom16BitSource
  cases v with
  | nil => rfl
  | cons c cs =>
    simp only [List.length_cons, Nat.add_one_ne_zero, if_false, WTFString.characters]
    have hmap : ∀ l : List UChar, (∀ x ∈ l, x < 256) → l.map (· % 256) = l := by
      intro l hl
      induction l with
      | nil => rfl
      | cons x xs ih =>
        rw [List.map_cons, ih (fun y hy => hl y (List.mem_cons_of_mem _ hy)),
          Nat.mod_eq_of_lt (hl x (List.mem_cons_self _ _))]
    exact hmap _ h

/-- Claim C5. For a token whose type is not `Uninitialized`, and whose flag
`commentIsAll8BitData` is raised only when every code unit of the comment is
below 256, the constructor `AtomicHTMLToken(HTMLToken&)` completes and the new
token has: the type of the source token; for `StartTag` and `EndTag` the name,
the self-closing flag and, as attributes, the result of `initializeAttributes`
on the attribute list of the source token; for `DOCTYPE` the name; for `Comment`
a comment with the characters of the source comment; for `Character` the size
of the character buffer as `charactersLength`. -/
theorem ofHTMLToken_preserves_fields (matchesName : QualifiedName → QualifiedName → Bool)
    (assertionsEnabled : Bool) (token : HTMLToken)
    (htype : token.type ≠ HTMLToken.TokenType.Uninitialized)
    (h8bit : token.commentIsAll8BitData = true → ∀ c ∈ token.comment, c < 256) :
    ∃ self token2,
      AtomicHTMLToken.ofHTMLToken matchesName assertionsEnabled token = some (self, token2) ∧
      self.type = token.type ∧
      (token.type = HTMLToken.TokenType.StartTag ∨ token.type = HTMLToken.TokenType.EndTag →
        self.name assertionsEnabled = some (AtomicString.ofVector token.name) ∧
        self.selfClosing assertionsEnabled = some token.selfClosing ∧
        self.attributes assertionsEnabled =
          some (AtomicHTMLToken.initializeAttributes matchesName [] token.attributes)) ∧
      (token.type = HTMLToken.TokenType.DOCTYPE →
        self.name assertionsEnabled = some (AtomicString.ofVector token.name)) ∧
      (token.type = HTMLToken.TokenType.Comment →
        ∃ data, self.comment assertionsEnabled = some data ∧
          data.characters = token.comment) ∧
      (token.type = HTMLToken.TokenType.Character →
        self.charactersLength assertionsEnabled = some token.characters.length) := by
  cases htok : token.type with
  | Uninitialized => exact absurd htok htype
  | DOCTYPE =>
    simp only [AtomicHTMLToken.ofHTMLToken, AtomicHTMLToken.afterMemberInit, htok,
      HTMLToken.releaseDoctypeData]
    refine ⟨_, _, rfl, ?_⟩
    cases assertionsEnabled <;> simp [AtomicHTMLToken.type, AtomicHTMLToken.name, ASSERT]
  | StartTag =>
    simp only [AtomicHTMLToken.ofHTMLToken, AtomicHTMLToken.afterMemberInit, htok]
    refine ⟨_, _, rfl, ?_⟩
    cases assertionsEnabled <;>
      simp [AtomicHTMLToken.type, AtomicHTMLToken.name, AtomicHTMLToken.selfClosing,
        AtomicHTMLToken.attributes, ASSERT]
  | EndTag =>
    simp only [AtomicHTMLToken.ofHTMLToken, AtomicHTMLToken.afterMemberInit, htok]
    refine ⟨_, _, rfl, ?_⟩
    cases assertionsEnabled <;>
      simp [AtomicHTMLToken.type, AtomicHTMLToken.name, AtomicHTMLToken.selfClosing,
        AtomicHTMLToken.attributes, ASSERT]
  | Comment =>
    simp only [AtomicHTMLToken.ofHTMLToken, AtomicHTMLToken.afterMemberInit, htok]
    refine ⟨_, _, rfl, ?_⟩
    cases hflag : token.commentIsAll8BitData
    · cases assertionsEnabled <;>
        simp [AtomicHTMLToken.type, AtomicHTMLToken.comment, ASSERT, WTFString.ofVector,
          WTFString.characters]
    · have hchars := make8BitFrom16BitSource_characters token.comment (h8bit hflag)
      cases assertionsEnabled <;>
        simp [AtomicHTMLToken.type, AtomicHTMLToken.comment, ASSERT, hchars]
  | Character =>
    simp only [AtomicHTMLToken.ofHTMLToken, AtomicHTMLToken.afterMemberInit, htok]
    refine ⟨_, _, rfl, ?_⟩
    cases assertionsEnabled <;>
      simp [AtomicHTMLToken.type, AtomicHTMLToken.charactersLength, ASSERT]
  | EndOfFile =>
    simp only [AtomicHTMLToken.ofHTMLToken, AtomicHTMLToken.afterMemberInit, htok]
    refine ⟨_, _, rfl, ?_⟩
    simp [AtomicHTMLToken.type]

/-- The claim C5 at the comment token `<!--hi-->`, all of whose code units are
8-bit, with assertions enabled. -/
theorem ofHTMLToken_preserves_fields_witness :
    (HTMLToken.mk .Comment [] false [] [104, 105] true [] false none).type ≠
      HTMLToken.TokenType.Uninitialized ∧
    ((HTMLToken.mk .Comment [] false [] [104, 105] true [] false none).commentIsAll8BitData
        = true → ∀ c ∈ [104, 105], c < 256) ∧
    ∃ self token2,
      AtomicHTMLToken.ofHTMLToken QualifiedName.matches true
        (HTMLToken.mk .Comment [] false [] [104, 105] true [] false none) = some (self, token2) ∧
      self.type = HTMLToken.TokenType.Comment ∧
      ∃ data, self.comment true = some data ∧ data.characters = [104, 105] := by
  refine ⟨by decide, fun _ => by decide, ?_⟩
  obtain ⟨self, token2, hmk, htype, -, -, hcomment, -⟩ :=
    ofHTMLToken_preserves_fields QualifiedName.matches true
      (HTMLToken.mk .Comment [] false [] [104, 105] true [] false none)
      (by decide) (fun _ => by decide)
  exact ⟨self, token2, hmk, htype, hcomment rfl⟩

/-- Claim C6. For `StartTag` and `EndTag` the constructor
`AtomicHTMLToken(type, name, attributes)` completes, with assertions compiled in
or out, and the new token has the given type, the given name, a false
self-closing flag and the given attribute vector as it was passed. With
assertions compiled in, the constructor completes exactly when the type is
`StartTag` or `EndTag`. -/
theorem ofTypeAndName_fields (assertionsEnabled : Bool) (type : HTMLToken.TokenType)
    (name : AtomicString) (attributes : List Attribute) :
    (type = HTMLToken.TokenType.StartTag ∨ type = HTMLToken.TokenType.EndTag →
      ∃ self, AtomicHTMLToken.ofTypeAndName assertionsEnabled type name attributes = some self ∧
        self.type = type ∧
        self.name assertionsEnabled = some name ∧
        self.selfClosing assertionsEnabled = some false ∧
        self.attributes assertionsEnabled = some attributes) ∧
    ((AtomicHTMLToken.ofTypeAndName true type name attributes).isSome = true ↔
      (type = HTMLToken.TokenType.StartTag ∨ type = HTMLToken.TokenType.EndTag)) := by
  constructor
  · rintro (rfl | rfl) <;> cases assertionsEnabled <;>
      simp [AtomicHTMLToken.ofTypeAndName, AtomicHTMLToken.type, AtomicHTMLToken.name,
        AtomicHTMLToken.selfClosing, AtomicHTMLToken.attributes, ASSERT]
  · cases type <;> simp [AtomicHTMLToken.ofTypeAndName, ASSERT]

end WebCore
